import Mathlib

/-!
Verification of the encoding pipeline of `tools/vly_keygen.py`
(offline VLY key/address generator).

The Python source is shallowly embedded: bytes become `List Nat` with
entries below 256, Python `int` becomes `Nat`, and every function under
verification (`sha256`, `to_wif`, the public-key compression in `main`,
and `main`'s printed lines) is translated into an executable Lean
definition.  External library calls (`ecdsa` key generation,
`hashlib.new('ripemd160')`, `bech32_encode` / `convertbits`) are treated
as opaque parameters, as the repository does not define them.
-/

set_option maxRecDepth 100000
set_option linter.unusedVariables false

namespace VlyKeygen

/-- Truncation to a 32-bit word, the implicit word size of SHA-256
arithmetic (`hashlib.sha256` semantics). -/
def w32 (n : Nat) : Nat := n % 4294967296

/-- Right rotation of a 32-bit word by `r` bits. -/
def rotr (r x : Nat) : Nat := w32 ((x >>> r) ||| (x <<< (32 - r)))

/-- SHA-256 round constants (FIPS 180-4). -/
def K256 : List Nat :=
  [1116352408, 1899447441, 3049323471, 3921009573, 961987163, 1508970993,
   2453635748, 2870763221, 3624381080, 310598401, 607225278, 1426881987,
   1925078388, 2162078206, 2614888103, 3248222580, 3835390401, 4022224774,
   264347078, 604807628, 770255983, 1249150122, 1555081692, 1996064986,
   2554220882, 2821834349, 2952996808, 3210313671, 3336571891, 3584528711,
   113926993, 338241895, 666307205, 773529912, 1294757372, 1396182291,
   1695183700, 1986661051, 2177026350, 2456956037, 2730485921, 2820302411,
   3259730800, 3345764771, 3516065817, 3600352804, 4094571909, 275423344,
   430227734, 506948616, 659060556, 883997877, 958139571, 1322822218,
   1537002063, 1747873779, 1955562222, 2024104815, 2227730452, 2361852424,
   2428436474, 2756734187, 3204031479, 3329325298]

/-- The eight 32-bit words of a SHA-256 chaining state. -/
structure Hash8 where
  ha : Nat
  hb : Nat
  hc : Nat
  hd : Nat
  he : Nat
  hf : Nat
  hg : Nat
  hh : Nat

/-- SHA-256 initial hash value (FIPS 180-4). -/
def initH : Hash8 :=
  ⟨1779033703, 3144134277, 1013904242, 2773480762,
   1359893119, 2600822924, 528734635, 1541459225⟩

/-- One SHA-256 compression round; `kw` pairs the round constant with the
scheduled message word. -/
def shaStep (st : Hash8) (kw : Nat × Nat) : Hash8 :=
  let e := st.he
  let s1 := rotr 6 e ^^^ rotr 11 e ^^^ rotr 25 e
  let ch := (e &&& st.hf) ^^^ ((e ^^^ 4294967295) &&& st.hg)
  let t1 := w32 (st.hh + s1 + ch + kw.1 + kw.2)
  let a := st.ha
  let s0 := rotr 2 a ^^^ rotr 13 a ^^^ rotr 22 a
  let maj := (a &&& st.hb) ^^^ (a &&& st.hc) ^^^ (st.hb &&& st.hc)
  let t2 := w32 (s0 + maj)
  ⟨w32 (t1 + t2), a, st.hb, st.hc, w32 (st.hd + t1), e, st.hf, st.hg⟩

/-- Next word of the SHA-256 message schedule, from the words produced
so far. -/
def schedNext (ws : List Nat) : Nat :=
  let L := ws.length
  let w15 := ws.getD (L - 15) 0
  let w2 := ws.getD (L - 2) 0
  let s0 := rotr 7 w15 ^^^ rotr 18 w15 ^^^ (w15 >>> 3)
  let s1 := rotr 17 w2 ^^^ rotr 19 w2 ^^^ (w2 >>> 10)
  w32 (ws.getD (L - 16) 0 + s0 + ws.getD (L - 7) 0 + s1)

/-- Extend a 16-word block by `k` further scheduled words. -/
def extendSched : Nat → List Nat → List Nat
  | 0, ws => ws
  | k+1, ws => extendSched k (ws ++ [schedNext ws])

/-- Componentwise 32-bit addition of chaining states. -/
def addH (s t : Hash8) : Hash8 :=
  ⟨w32 (s.ha + t.ha), w32 (s.hb + t.hb), w32 (s.hc + t.hc), w32 (s.hd + t.hd),
   w32 (s.he + t.he), w32 (s.hf + t.hf), w32 (s.hg + t.hg), w32 (s.hh + t.hh)⟩

/-- SHA-256 compression of one 16-word block into the chaining state. -/
def compressBlock (st : Hash8) (block : List Nat) : Hash8 :=
  let ws := extendSched 48 block
  addH st ((K256.zip ws).foldl shaStep st)

/-- Big-endian byte string of fixed length `k` for `n` (the embedding of
Python's `int.to_bytes(k, "big")`, faithful whenever `n < 256 ^ k`). -/
def beBytes : Nat → Nat → List Nat
  | 0, _ => []
  | k+1, n => beBytes k (n / 256) ++ [n % 256]

/-- SHA-256 padding: append `0x80`, zeros to 56 mod 64, and the 8-byte
big-endian bit length. -/
def sha256pad (msg : List Nat) : List Nat :=
  msg ++ 128 :: (List.replicate ((119 - msg.length % 64) % 64) 0
    ++ beBytes 8 (8 * msg.length))

/-- Group bytes into big-endian 32-bit words. -/
def bytesToWords : List Nat → List Nat
  | a :: b :: c :: d :: rest =>
      (((a * 256 + b) * 256 + c) * 256 + d) :: bytesToWords rest
  | _ => []

/-- Iterate the compression function over successive 16-word blocks
(`fuel` bounds the number of steps; `ws.length` is always enough). -/
def processBlocks : Nat → Hash8 → List Nat → Hash8
  | 0, st, _ => st
  | fuel+1, st, ws =>
    match ws with
    | [] => st
    | _ => processBlocks fuel (compressBlock st (ws.take 16)) (ws.drop 16)

/-- SHA-256 of a byte string, as bytes: the embedding of the script's
`sha256` helper (`hashlib.sha256(b).digest()`). -/
def sha256 (msg : List Nat) : List Nat :=
  let ws := bytesToWords (sha256pad msg)
  let st := processBlocks ws.length initH ws
  beBytes 4 st.ha ++ beBytes 4 st.hb ++ beBytes 4 st.hc ++ beBytes 4 st.hd ++
  beBytes 4 st.he ++ beBytes 4 st.hf ++ beBytes 4 st.hg ++ beBytes 4 st.hh

/-- The script's base58 alphabet (`b58` in `to_wif`), as characters. -/
def b58chars : List Char :=
  "123456789ABCDEFGHJKLMNPQRSTUVWXYZabcdefghijkmnopqrstuvwxyz".data

/-- Big-endian value of a digit string in base `b`; at `b = 256` this is
the embedding of Python's `int.from_bytes(data, "big")`. -/
def valD (b : Nat) (ds : List Nat) : Nat := ds.foldl (fun a d => a * b + d) 0

/-- The embedding of `int.from_bytes(data, "big")`. -/
def fromBytesBE (bs : List Nat) : Nat := valD 256 bs

/-- The `while n > 0` division loop of `to_wif`: base58 digit indices,
least significant first, exactly as the script appends them.  `fuel ≥ n`
makes the recursion total without changing the result. -/
def b58loop : Nat → Nat → List Nat
  | 0, _ => []
  | fuel+1, n => if n = 0 then [] else n % 58 :: b58loop fuel (n / 58)

/-- `payload = b"\x80" + privkey_bytes + (b"\x01" if compressed else b"")`. -/
def wifPayload (key : List Nat) (compressed : Bool) : List Nat :=
  128 :: (key ++ (if compressed then [1] else []))

/-- `chk = sha256(sha256(payload))[:4]`. -/
def wifChecksum (key : List Nat) (compressed : Bool) : List Nat :=
  (sha256 (sha256 (wifPayload key compressed))).take 4

/-- `data = payload + chk`. -/
def wifData (key : List Nat) (compressed : Bool) : List Nat :=
  wifPayload key compressed ++ wifChecksum key compressed

/-- Count of leading `0x00` bytes; the script's
`for c in data: if c == 0: out = bytearray(b"1") + out else: break`
prepends exactly this many '1' characters. -/
def leadZeros : List Nat → Nat
  | [] => 0
  | b :: bs => if b = 0 then leadZeros bs + 1 else 0

/-- The embedding of the script's `to_wif`. -/
def to_wif (key : List Nat) (compressed : Bool) : String :=
  let data := wifData key compressed
  let n := fromBytesBE data
  let out := ((b58loop n n).map (fun r => b58chars.getD r '1')).reverse
  String.mk (List.replicate (leadZeros data) '1' ++ out)

/-- Digit string of `n` in base `b`, most significant first, empty for 0
(`fuel ≥ n` suffices). -/
def digitsF (b : Nat) : Nat → Nat → List Nat
  | 0, _ => []
  | fuel+1, n => if n = 0 then [] else digitsF b fuel (n / b) ++ [n % b]

/-- Spec-side big-endian integer value, following the claim's words:
each byte weighted by 256 to the power of its distance from the right
end. -/
def specBEval : List Nat → Nat
  | [] => 0
  | b :: bs => b * 256 ^ bs.length + specBEval bs

/-- Spec-side WIF encoding, following the claim's words: version-byte
payload, 4-byte double-SHA-256 checksum, base58 digits collected by
repeated division and emitted most-significant first, then one '1' per
leading zero byte of the checksummed data. -/
def specWIF (key : List Nat) (compressed : Bool) : String :=
  let payload := [128] ++ key ++ (if compressed then [1] else [])
  let data := payload ++ (sha256 (sha256 payload)).take 4
  let n := specBEval data
  String.mk (List.replicate ((data.takeWhile (fun b => b == 0)).length) '1'
    ++ (digitsF 58 n n).map (fun d => b58chars.getD d '1'))

/-- `main`'s public-key compression:
`prefix = b"\x02" if (py % 2 == 0) else b"\x03"` followed by
`px.to_bytes(32, "big")`. -/
def compressPubkey (x y : Nat) : List Nat :=
  (if y % 2 = 0 then 2 else 3) :: beBytes 32 x

/-- The secp256k1 base field prime. -/
def secpP : Nat := 2 ^ 256 - 2 ^ 32 - 977

/-- Membership of an affine point in the secp256k1 curve. -/
def onCurve (x y : Nat) : Prop :=
  x < secpP ∧ y < secpP ∧ (y * y) % secpP = (x * x * x + 7) % secpP

instance (x y : Nat) : Decidable (onCurve x y) := by
  unfold onCurve
  infer_instance

/-- The lines `main` prints, as a function of the generated private-key
bytes and of the address string returned by the external
`bech32_encode` call. -/
def mainOutput (addr : String) (priv : List Nat) : List String :=
  ["=== VLY KEYGEN (offline) ===",
   "Public address (VLY Bech32): " ++ addr,
   "Private key (WIF, keep SECRET!): " ++ to_wif priv true]

/-- Index of a character in the base58 alphabet. -/
def b58index (c : Char) : Nat := b58chars.indexOf c

/-- Base58Check decoding, the reverse of the encoding steps: strip
leading '1's into leading zero bytes, read the remaining characters as
base58 digits of a big-endian integer, and write that integer back as a
minimal big-endian byte string. -/
def b58decode (s : String) : List Nat :=
  let cs := s.data
  let ones := (cs.takeWhile (fun c => c == '1')).length
  let n := (cs.drop ones).foldl (fun a c => a * 58 + b58index c) 0
  List.replicate ones 0 ++ digitsF 256 n n

/-- The address pipeline of `main` after key generation, with the
external primitives (`ripemd160`, `convertbits(·, 8, 5, True)`,
`bech32_encode`) passed as opaque function parameters:
`bech32_encode(HRP, [WITVER] + convertbits(ripemd160(sha256(pub)), 8, 5, True))`. -/
def addressPipeline (r160 : List Nat → List Nat) (conv : List Nat → List Nat)
    (bech : String → List Nat → String) (x y : Nat) : String :=
  bech "vly" (0 :: conv (r160 (sha256 (compressPubkey x y))))

/-- A printed line is labeled when it starts with one of the two labels
of the output format. -/
def isLabeled (s : String) : Bool :=
  "Public address (VLY Bech32):".data.isPrefixOf s.data ||
  "Private key (WIF, keep SECRET!):".data.isPrefixOf s.data

/-- Number of leading '1' characters of a string. -/
def leadOnes (s : String) : Nat :=
  (s.data.takeWhile (fun ch => ch == '1')).length

/-! ### Generic lemmas about fuelled digit strings -/

theorem digitsF_zero (b : Nat) : ∀ f, digitsF b f 0 = [] := by
  intro f
  cases f <;> simp [digitsF]

theorem digitsF_fuel (b : Nat) (hb : 1 < b) :
    ∀ f g n, n ≤ f → f ≤ g → digitsF b f n = digitsF b g n := by
  intro f
  induction f with
  | zero =>
    intro g n hn _
    have : n = 0 := Nat.le_zero.mp hn
    subst this
    rw [digitsF_zero, digitsF_zero]
  | succ f ih =>
    intro g n hn hfg
    obtain ⟨g', rfl⟩ : ∃ g', g = g' + 1 := ⟨g - 1, by omega⟩
    by_cases h0 : n = 0
    · subst h0
      rw [digitsF_zero, digitsF_zero]
    · simp only [digitsF, if_neg h0]
      have hdiv := Nat.div_lt_self (Nat.pos_of_ne_zero h0) hb
      rw [ih g' (n / b) (by omega) (by omega)]

theorem valD_append (b : Nat) (ds : List Nat) (d : Nat) :
    valD b (ds ++ [d]) = valD b ds * b + d := by
  simp [valD, List.foldl_append]

theorem valD_digitsF (b : Nat) (hb : 1 < b) :
    ∀ f n, n ≤ f → valD b (digitsF b f n) = n := by
  intro f
  induction f with
  | zero =>
    intro n hn
    have : n = 0 := Nat.le_zero.mp hn
    subst this
    simp [digitsF, valD]
  | succ f ih =>
    intro n hn
    by_cases h0 : n = 0
    · subst h0
      simp [digitsF, valD]
    · simp only [digitsF, if_neg h0]
      have hdiv := Nat.div_lt_self (Nat.pos_of_ne_zero h0) hb
      rw [valD_append, ih (n / b) (by omega), Nat.mul_comm]
      exact Nat.div_add_mod n b

theorem digitsF_lt (b : Nat) (hb : 0 < b) :
    ∀ f n d, d ∈ digitsF b f n → d < b := by
  intro f
  induction f with
  | zero =>
    intro n d hd
    simp [digitsF] at hd
  | succ f ih =>
    intro n d hd
    by_cases h0 : n = 0
    · subst h0
      simp [digitsF] at hd
    · simp only [digitsF, if_neg h0, List.mem_append, List.mem_singleton] at hd
      rcases hd with h | h
      · exact ih _ _ h
      · subst h
        exact Nat.mod_lt _ hb

theorem digitsF_head (b : Nat) (hb : 1 < b) :
    ∀ f n, 0 < n → n ≤ f → ∃ d t, digitsF b f n = d :: t ∧ 0 < d ∧ d < b := by
  intro f
  induction f with
  | zero =>
    intro n h hn
    omega
  | succ f ih =>
    intro n h hn
    have h0 : n ≠ 0 := Nat.pos_iff_ne_zero.mp h
    simp only [digitsF, if_neg h0]
    by_cases hsmall : n / b = 0
    · have hlt : n < b := (Nat.div_eq_zero_iff (by omega)).mp hsmall
      rw [hsmall, digitsF_zero]
      exact ⟨n % b, [], rfl, by rw [Nat.mod_eq_of_lt hlt]; exact h,
        Nat.mod_lt _ (by omega)⟩
    · have hdiv := Nat.div_lt_self h hb
      obtain ⟨d, t, hdt, hd0, hdb⟩ :=
        ih (n / b) (Nat.pos_of_ne_zero hsmall) (by omega)
      exact ⟨d, t ++ [n % b], by rw [hdt]; simp, hd0, hdb⟩

theorem digitsF_length_le (b : Nat) (hb : 1 < b) :
    ∀ k f n, n < b ^ k → (digitsF b f n).length ≤ k := by
  intro k
  induction k with
  | zero =>
    intro f n hn
    have : n = 0 := by simpa using hn
    subst this
    simp [digitsF_zero]
  | succ k ih =>
    intro f n hn
    cases f with
    | zero => simp [digitsF]
    | succ f =>
      by_cases h0 : n = 0
      · subst h0
        simp [digitsF]
      · simp only [digitsF, if_neg h0, List.length_append, List.length_cons,
          List.length_nil]
        have hdb : n / b < b ^ k := by
          rw [Nat.div_lt_iff_lt_mul (by omega)]
          calc n < b ^ (k + 1) := hn
          _ = b ^ k * b := by ring
        have := ih f (n / b) hdb
        omega

theorem digitsF_length_gt (b : Nat) (hb : 1 < b) :
    ∀ k f n, b ^ k ≤ n → n ≤ f → k < (digitsF b f n).length := by
  intro k
  induction k with
  | zero =>
    intro f n hn hf
    have h1 : 0 < n := by simpa using hn
    cases f with
    | zero => omega
    | succ f =>
      have h0 : n ≠ 0 := by omega
      simp only [digitsF, if_neg h0, List.length_append, List.length_cons,
        List.length_nil]
      omega
  | succ k ih =>
    intro f n hn hf
    have hbn : b ≤ n := by
      calc b = b ^ 1 := (pow_one b).symm
      _ ≤ b ^ (k + 1) := Nat.pow_le_pow_right (by omega) (by omega)
      _ ≤ n := hn
    cases f with
    | zero => omega
    | succ f =>
      have h0 : n ≠ 0 := by omega
      simp only [digitsF, if_neg h0, List.length_append, List.length_cons,
        List.length_nil]
      have h1 : b ^ k ≤ n / b := by
        rw [Nat.le_div_iff_mul_le (by omega)]
        calc b ^ k * b = b ^ (k + 1) := by ring
        _ ≤ n := hn
      have h2 : n / b ≤ f := by
        have := Nat.div_lt_self (by omega : 0 < n) hb
        omega
      have := ih f (n / b) h1 h2
      omega

theorem foldl_val_lt (b : Nat) :
    ∀ (ds : List Nat) (a : Nat), (∀ d ∈ ds, d < b) →
      ds.foldl (fun x d => x * b + d) a < (a + 1) * b ^ ds.length := by
  intro ds
  induction ds with
  | nil =>
    intro a _
    simp
  | cons d ds ih =>
    intro a hd
    have h1 : d < b := hd d (by simp)
    have h2 := ih (a * b + d) (fun x hx => hd x (by simp [hx]))
    simp only [List.foldl_cons, List.length_cons]
    calc ds.foldl (fun x d => x * b + d) (a * b + d)
        < (a * b + d + 1) * b ^ ds.length := h2
    _ ≤ ((a + 1) * b) * b ^ ds.length := by
        have : a * b + d + 1 ≤ (a + 1) * b := by nlinarith
        exact Nat.mul_le_mul_right _ this
    _ = (a + 1) * b ^ (ds.length + 1) := by ring

theorem foldl_val_ge (b : Nat) :
    ∀ (ds : List Nat) (a : Nat),
      a * b ^ ds.length ≤ ds.foldl (fun x d => x * b + d) a := by
  intro ds
  induction ds with
  | nil => simp
  | cons d ds ih =>
    intro a
    simp only [List.foldl_cons, List.length_cons]
    calc a * b ^ (ds.length + 1) = (a * b) * b ^ ds.length := by ring
    _ ≤ (a * b + d) * b ^ ds.length := Nat.mul_le_mul_right _ (by omega)
    _ ≤ ds.foldl (fun x d => x * b + d) (a * b + d) := ih _

theorem digitsF_valD (b : Nat) (hb : 1 < b) :
    ∀ ds : List Nat, (∀ d ∈ ds, d < b) → ds.head? ≠ some 0 →
      ∀ f, valD b ds ≤ f → digitsF b f (valD b ds) = ds := by
  intro ds
  induction ds using List.reverseRecOn with
  | nil =>
    intro _ _ f _
    have : valD b ([] : List Nat) = 0 := rfl
    rw [this, digitsF_zero]
  | append_singleton ys d ih =>
    intro hlt hh f hf
    rw [valD_append] at hf ⊢
    have hd : d < b := hlt d (by simp)
    cases ys with
    | nil =>
      have hd0 : d ≠ 0 := by
        simpa using hh
      have hv : valD b ([] : List Nat) = 0 := rfl
      rw [hv] at hf ⊢
      simp only [Nat.zero_mul, Nat.zero_add] at hf ⊢
      obtain ⟨f', rfl⟩ : ∃ f', f = f' + 1 := ⟨f - 1, by omega⟩
      simp only [digitsF, if_neg hd0]
      rw [Nat.div_eq_of_lt hd, digitsF_zero, Nat.mod_eq_of_lt hd]
    | cons y ys' =>
      have hy : y ≠ 0 := by
        simpa using hh
      have hv1 : 1 ≤ valD b (y :: ys') := by
        have h1 : y * b ^ ys'.length ≤ valD b (y :: ys') := by
          simpa [valD] using foldl_val_ge b ys' y
        have h2 : 1 ≤ y * b ^ ys'.length :=
          Nat.one_le_iff_ne_zero.mpr
            (Nat.mul_ne_zero hy (Nat.pos_iff_ne_zero.mp (Nat.pos_pow_of_pos _ (by omega))))
        omega
      set v := valD b (y :: ys') with hvdef
      have hn0 : v * b + d ≠ 0 := by
        have : b ≤ v * b := by nlinarith
        omega
      obtain ⟨f', rfl⟩ : ∃ f', f = f' + 1 := ⟨f - 1, by omega⟩
      simp only [digitsF, if_neg hn0]
      have hdiv : (v * b + d) / b = v := by
        rw [Nat.mul_comm v b, Nat.mul_add_div (by omega)]
        simp [Nat.div_eq_of_lt hd]
      have hmod : (v * b + d) % b = d := by
        rw [Nat.mul_comm v b, Nat.mul_add_mod, Nat.mod_eq_of_lt hd]
      rw [hdiv, hmod]
      have hf' : v ≤ f' := by nlinarith
      rw [ih (fun x hx => hlt x (List.mem_append_left _ hx)) (by simpa using hy) f' hf']

/-! ### Bridges between the code-side and spec-side formulations -/

theorem b58loop_reverse : ∀ f n, (b58loop f n).reverse = digitsF 58 f n := by
  intro f
  induction f with
  | zero =>
    intro n
    rfl
  | succ f ih =>
    intro n
    by_cases h0 : n = 0 <;> simp [b58loop, digitsF, h0, ih]

theorem foldl_val_specBEval :
    ∀ (bs : List Nat) (a : Nat),
      bs.foldl (fun x d => x * 256 + d) a = a * 256 ^ bs.length + specBEval bs := by
  intro bs
  induction bs with
  | nil => simp [specBEval]
  | cons b bs ih =>
    intro a
    simp only [List.foldl_cons, List.length_cons, specBEval, ih]
    ring

theorem specBEval_eq (bs : List Nat) : specBEval bs = fromBytesBE bs := by
  simp [fromBytesBE, valD, foldl_val_specBEval]

theorem leadZeros_eq_takeWhile :
    ∀ bs : List Nat, leadZeros bs = (bs.takeWhile (fun x => x == 0)).length := by
  intro bs
  induction bs with
  | nil => rfl
  | cons b bs ih =>
    by_cases h : b = 0 <;> simp [leadZeros, List.takeWhile_cons, h, ih]

/-! ### Byte-level facts about `beBytes` and `sha256` -/

theorem beBytes_length : ∀ k n, (beBytes k n).length = k := by
  intro k
  induction k with
  | zero => intro n; rfl
  | succ k ih => intro n; simp [beBytes, ih]

theorem beBytes_lt : ∀ k n b, b ∈ beBytes k n → b < 256 := by
  intro k
  induction k with
  | zero =>
    intro n b hb
    simp [beBytes] at hb
  | succ k ih =>
    intro n b hb
    simp only [beBytes, List.mem_append, List.mem_singleton] at hb
    rcases hb with h | h
    · exact ih _ _ h
    · subst h
      exact Nat.mod_lt _ (by omega)

theorem fromBytesBE_beBytes (k : Nat) :
    ∀ n, fromBytesBE (beBytes k n) = n % 256 ^ k := by
  induction k with
  | zero =>
    intro n
    simp [beBytes, fromBytesBE, valD, Nat.mod_one]
  | succ k ih =>
    intro n
    have h : fromBytesBE (beBytes k (n / 256) ++ [n % 256])
        = fromBytesBE (beBytes k (n / 256)) * 256 + n % 256 := valD_append 256 _ _
    rw [beBytes, h, ih]
    have hmul : (256 : Nat) ^ (k + 1) = 256 * 256 ^ k := by ring
    rw [hmul, Nat.mod_mul]
    omega

theorem sha256_length (m : List Nat) : (sha256 m).length = 32 := by
  simp [sha256, beBytes_length]

theorem sha256_lt (m : List Nat) : ∀ x ∈ sha256 m, x < 256 := by
  intro x hx
  simp only [sha256, List.mem_append] at hx
  rcases hx with ((((((h | h) | h) | h) | h) | h) | h) | h <;>
    exact beBytes_lt _ _ _ h

/-! ### Facts about the WIF data bytes -/

theorem wifData_cons (key : List Nat) (c : Bool) :
    wifData key c
      = 128 :: ((key ++ if c then [1] else []) ++ wifChecksum key c) := by
  simp [wifData, wifPayload]

theorem wifChecksum_length (key : List Nat) (c : Bool) :
    (wifChecksum key c).length = 4 := by
  simp [wifChecksum, List.length_take, sha256_length]

theorem wifPayload_length (key : List Nat) (c : Bool) (h : key.length = 32) :
    (wifPayload key c).length = if c then 34 else 33 := by
  cases c <;> simp [wifPayload, h]

theorem wifData_length (key : List Nat) (c : Bool) (h : key.length = 32) :
    (wifData key c).length = if c then 38 else 37 := by
  have := wifPayload_length key c h
  cases c <;>
    simp_all [wifData, List.length_append, wifChecksum_length]

theorem wifData_lt (key : List Nat) (c : Bool) (hk : ∀ b ∈ key, b < 256) :
    ∀ b ∈ wifData key c, b < 256 := by
  intro x hx
  rw [wifData_cons] at hx
  simp only [List.mem_cons, List.mem_append] at hx
  rcases hx with h | (h | h) | h
  · omega
  · exact hk x h
  · cases c <;> simp_all
  · have hx' : x ∈ sha256 (sha256 (wifPayload key c)) :=
      List.take_subset _ _ h
    exact sha256_lt _ x hx'

theorem leadZeros_wifData (key : List Nat) (c : Bool) :
    leadZeros (wifData key c) = 0 := by
  rw [wifData_cons]
  simp [leadZeros]

theorem fromBytesBE_cons_ge (x : Nat) (bs : List Nat) :
    x * 256 ^ bs.length ≤ fromBytesBE (x :: bs) := by
  have h := foldl_val_ge 256 bs x
  simpa [fromBytesBE, valD] using h

theorem fromBytesBE_lt (bs : List Nat) (h : ∀ b ∈ bs, b < 256) :
    fromBytesBE bs < 256 ^ bs.length := by
  have := foldl_val_lt 256 bs 0 h
  simpa [fromBytesBE, valD] using this

theorem fromBytesBE_wifData_pos (key : List Nat) (c : Bool) :
    0 < fromBytesBE (wifData key c) := by
  rw [wifData_cons]
  have h := fromBytesBE_cons_ge 128 ((key ++ if c then [1] else []) ++ wifChecksum key c)
  have h2 : 0 < 128 * 256 ^ ((key ++ if c then [1] else []) ++ wifChecksum key c).length :=
    Nat.mul_pos (by omega) (Nat.pos_pow_of_pos _ (by omega))
  omega

/-! ### Facts about the base58 alphabet, by computation -/

theorem b58chars_getD_ne_one :
    ∀ d, d < 58 → 0 < d → b58chars.getD d '1' ≠ '1' := by decide

theorem b58index_getD : ∀ d, d < 58 → b58index (b58chars.getD d '1') = d := by
  decide

/-! ### Normal form of `to_wif` -/

theorem to_wif_eq (key : List Nat) (c : Bool) :
    to_wif key c = String.mk (List.replicate (leadZeros (wifData key c)) '1'
      ++ (digitsF 58 (fromBytesBE (wifData key c)) (fromBytesBE (wifData key c))).map
          (fun r => b58chars.getD r '1')) := by
  simp [to_wif, ← b58loop_reverse, List.map_reverse]

theorem to_wif_data (key : List Nat) (c : Bool) :
    (to_wif key c).data
      = (digitsF 58 (fromBytesBE (wifData key c)) (fromBytesBE (wifData key c))).map
          (fun r => b58chars.getD r '1') := by
  rw [to_wif_eq, leadZeros_wifData]
  rfl

theorem isPrefixOf_append_self (l t : List Char) : l.isPrefixOf (l ++ t) = true := by
  induction l with
  | nil => simp
  | cons a l ih => simp [List.isPrefixOf_cons₂, ih]

theorem isPrefixOf_append_left :
    ∀ l m t : List Char, l.isPrefixOf m = true → l.isPrefixOf (m ++ t) = true := by
  intro l
  induction l with
  | nil =>
    intro m t _
    simp
  | cons a l ih =>
    intro m t h
    cases m with
    | nil => simp at h
    | cons b m' =>
      rw [List.isPrefixOf_cons₂] at h
      obtain ⟨hab, hrest⟩ := Bool.and_eq_true_iff.mp h
      rw [List.cons_append, List.isPrefixOf_cons₂, hab, ih m' t hrest]
      rfl

/-- Sanity vector for the SHA-256 embedding: the FIPS 180-4 digest of
`"abc"`. -/
theorem sha256_abc : sha256 [97, 98, 99] =
    [186, 120, 22, 191, 143, 1, 207, 234, 65, 65, 64, 222, 93, 174, 34, 35,
     176, 3, 97, 163, 150, 23, 122, 156, 180, 16, 255, 97, 242, 0, 21, 173] := by
  decide

/-! ### The claims -/

theorem specWIF_eq (key : List Nat) (c : Bool) :
    specWIF key c = String.mk (List.replicate (leadZeros (wifData key c)) '1'
      ++ (digitsF 58 (fromBytesBE (wifData key c)) (fromBytesBE (wifData key c))).map
          (fun r => b58chars.getD r '1')) := by
  simp [specWIF, wifData, wifPayload, wifChecksum, specBEval_eq,
    leadZeros_eq_takeWhile]

/-- C1: for every 32-byte private key and compressed flag, `to_wif`
returns exactly the base58 string obtained from the spec's recipe:
version payload, first 4 bytes of the double SHA-256 as checksum,
big-endian integer interpretation, repeated division by 58 into the
base58 alphabet most-significant digit first, and one '1' per leading
zero byte of the checksummed data (`specWIF` transcribes that recipe). -/
theorem to_wif_follows_base58check (key : List Nat) (c : Bool)
    (hlen : key.length = 32) : to_wif key c = specWIF key c := by
  rw [to_wif_eq, specWIF_eq]

theorem to_wif_follows_base58check_witness :
    (List.replicate 32 1).length = 32 ∧
    to_wif (List.replicate 32 1) true = specWIF (List.replicate 32 1) true :=
  ⟨by decide, to_wif_follows_base58check (List.replicate 32 1) true (by decide)⟩

/-- C2: for every point (x, y) on the secp256k1 curve, the compressed
public key built by `main` is 33 bytes, its first byte is 2 exactly when
y is even and 3 when y is odd, and the remaining 32 bytes are the
big-endian encoding of x (length 32, value x, all entries bytes). -/
theorem compressed_pubkey_format (x y : Nat) (h : onCurve x y) :
    (compressPubkey x y).length = 33 ∧
    (compressPubkey x y).head? = some (if y % 2 = 0 then 2 else 3) ∧
    (compressPubkey x y).tail = beBytes 32 x ∧
    (beBytes 32 x).length = 32 ∧
    specBEval (beBytes 32 x) = x ∧
    (∀ b ∈ beBytes 32 x, b < 256) := by
  obtain ⟨hx, hy, _⟩ := h
  refine ⟨?_, ?_, rfl, beBytes_length _ _, ?_, fun b hb => beBytes_lt _ _ _ hb⟩
  · simp [compressPubkey, beBytes_length]
  · by_cases hpar : y % 2 = 0 <;> simp [compressPubkey, hpar]
  · rw [specBEval_eq, fromBytesBE_beBytes]
    have hp : secpP < 256 ^ 32 := by norm_num [secpP]
    exact Nat.mod_eq_of_lt (by omega)

theorem compressed_pubkey_format_witness :
    onCurve 55066263022277343669578718895168534326250603453777594175500187360389116729240
      32670510020758816978083085130507043184471273380659243275938904335757337482424 ∧
    ((compressPubkey 55066263022277343669578718895168534326250603453777594175500187360389116729240
        32670510020758816978083085130507043184471273380659243275938904335757337482424).length = 33 ∧
     (compressPubkey 55066263022277343669578718895168534326250603453777594175500187360389116729240
        32670510020758816978083085130507043184471273380659243275938904335757337482424).head?
       = some (if 32670510020758816978083085130507043184471273380659243275938904335757337482424 % 2 = 0 then 2 else 3) ∧
     (compressPubkey 55066263022277343669578718895168534326250603453777594175500187360389116729240
        32670510020758816978083085130507043184471273380659243275938904335757337482424).tail
       = beBytes 32 55066263022277343669578718895168534326250603453777594175500187360389116729240 ∧
     (beBytes 32 55066263022277343669578718895168534326250603453777594175500187360389116729240).length = 32 ∧
     specBEval (beBytes 32 55066263022277343669578718895168534326250603453777594175500187360389116729240)
       = 55066263022277343669578718895168534326250603453777594175500187360389116729240 ∧
     (∀ b ∈ beBytes 32 55066263022277343669578718895168534326250603453777594175500187360389116729240, b < 256)) :=
  ⟨by decide, compressed_pubkey_format _ _ (by decide)⟩

/-- C6: for a fixed private key and fixed public point, the
address-encoding pipeline (with its external primitives held fixed) and
`to_wif` are deterministic: equal inputs give identical output strings;
both are pure functions with no further source of randomness. -/
theorem pipeline_deterministic (r160 conv : List Nat → List Nat)
    (bech : String → List Nat → String) (x₁ y₁ x₂ y₂ : Nat)
    (k₁ k₂ : List Nat) (c₁ c₂ : Bool)
    (hx : x₁ = x₂) (hy : y₁ = y₂) (hk : k₁ = k₂) (hc : c₁ = c₂) :
    addressPipeline r160 conv bech x₁ y₁ = addressPipeline r160 conv bech x₂ y₂ ∧
    to_wif k₁ c₁ = to_wif k₂ c₂ := by
  subst hx
  subst hy
  subst hk
  subst hc
  exact ⟨rfl, rfl⟩

theorem pipeline_deterministic_witness :
    addressPipeline id id (fun _ _ => "a") 1 2 = addressPipeline id id (fun _ _ => "a") 1 2 ∧
    to_wif [3] true = to_wif [3] true :=
  pipeline_deterministic id id (fun _ _ => "a") 1 2 1 2 [3] [3] true true
    rfl rfl rfl rfl

/-- C7: for the same 32-byte key, the uncompressed payload is the
compressed payload without its trailing 0x01 byte, and the checksummed
data are 37 and 38 bytes long respectively. -/
theorem compression_flag_effect (key : List Nat) (h : key.length = 32) :
    wifPayload key true = wifPayload key false ++ [1] ∧
    (wifData key false).length = 37 ∧
    (wifData key true).length = 38 := by
  refine ⟨by simp [wifPayload], ?_, ?_⟩
  · simpa using wifData_length key false h
  · simpa using wifData_length key true h

theorem compression_flag_effect_witness :
    (List.replicate 32 9).length = 32 ∧
    (wifPayload (List.replicate 32 9) true = wifPayload (List.replicate 32 9) false ++ [1] ∧
     (wifData (List.replicate 32 9) false).length = 37 ∧
     (wifData (List.replicate 32 9) true).length = 38) :=
  ⟨by decide, compression_flag_effect (List.replicate 32 9) (by decide)⟩

/-- C8: for every 32-byte private key whose first byte is 0x00, the WIF
string has as many leading '1' characters as the checksummed data has
leading zero bytes (both counts are zero, because the data begins with
the version byte 0x80). -/
theorem leading_zero_preservation (key : List Nat) (c : Bool)
    (hlen : key.length = 32) (hhead : key.head? = some 0) :
    leadOnes (to_wif key c) = leadZeros (wifData key c) := by
  rw [leadZeros_wifData, leadOnes, to_wif_data]
  set n := fromBytesBE (wifData key c) with hndef
  obtain ⟨d0, t, hds, hd0pos, hd0lt⟩ :=
    digitsF_head 58 (by norm_num) n n (fromBytesBE_wifData_pos key c) le_rfl
  rw [hds]
  have hne : (b58chars.getD d0 '1' == '1') = false :=
    beq_eq_false_iff_ne.mpr (b58chars_getD_ne_one d0 hd0lt hd0pos)
  simp only [List.map_cons, List.takeWhile_cons, hne]
  simp

theorem leading_zero_preservation_witness :
    (0 :: List.replicate 31 7).length = 32 ∧
    (0 :: List.replicate 31 7).head? = some 0 ∧
    leadOnes (to_wif (0 :: List.replicate 31 7) true)
      = leadZeros (wifData (0 :: List.replicate 31 7) true) :=
  ⟨by decide, by decide,
   leading_zero_preservation (0 :: List.replicate 31 7) true (by decide) (by decide)⟩

/-- C10: for every 32-byte private key and either flag value, the WIF
string is non-empty and never starts with '1': the checksummed data
begins with the nonzero byte 0x80, so no '1' is prepended and the most
significant base58 digit is nonzero. -/
theorem wif_first_char (key : List Nat) (c : Bool) (hlen : key.length = 32) :
    (to_wif key c).data ≠ [] ∧ (to_wif key c).data.head? ≠ some '1' := by
  rw [to_wif_data]
  set n := fromBytesBE (wifData key c) with hndef
  obtain ⟨d0, t, hds, hd0pos, hd0lt⟩ :=
    digitsF_head 58 (by norm_num) n n (fromBytesBE_wifData_pos key c) le_rfl
  rw [hds]
  refine ⟨by simp, ?_⟩
  simp only [List.map_cons, List.head?_cons, ne_eq, Option.some.injEq]
  exact b58chars_getD_ne_one d0 hd0lt hd0pos

theorem wif_first_char_witness :
    (List.replicate 32 255).length = 32 ∧
    ((to_wif (List.replicate 32 255) false).data ≠ [] ∧
     (to_wif (List.replicate 32 255) false).data.head? ≠ some '1') :=
  ⟨by decide, wif_first_char (List.replicate 32 255) false (by decide)⟩

/-- C9: for every 32-byte private key, the compressed-flag WIF string is
between 51 and 52 characters long: the 38-byte checksummed data lies in
[128·256³⁷, 256³⁸), an interval contained in [58⁵⁰, 58⁵²), and no '1' is
prepended. -/
theorem wif_length_51_52 (key : List Nat)
    (hlen : key.length = 32) (hbytes : ∀ b ∈ key, b < 256) :
    51 ≤ (to_wif key true).length ∧ (to_wif key true).length ≤ 52 := by
  set n := fromBytesBE (wifData key true) with hndef
  have hdl : (wifData key true).length = 38 := by
    simpa using wifData_length key true hlen
  have hlen1 : (to_wif key true).length = (digitsF 58 n n).length := by
    rw [to_wif_eq, leadZeros_wifData]
    simp [String.length]
  have htail : ((key ++ if true = true then [1] else []) ++ wifChecksum key true).length = 37 := by
    have := hdl
    rw [wifData_cons] at this
    simpa using this
  have hub : n < 256 ^ 38 := by
    have h := fromBytesBE_lt (wifData key true) (wifData_lt key true hbytes)
    rwa [hdl] at h
  have hlb : 128 * 256 ^ 37 ≤ n := by
    have h := fromBytesBE_cons_ge 128
      ((key ++ if true = true then [1] else []) ++ wifChecksum key true)
    rw [htail] at h
    rw [hndef, wifData_cons]
    exact h
  constructor
  · have h50 : (58 : Nat) ^ 50 ≤ n := le_trans (by norm_num) hlb
    have hgt := digitsF_length_gt 58 (by norm_num) 50 n n h50 le_rfl
    omega
  · have h52 : n < 58 ^ 52 := lt_of_lt_of_le hub (by norm_num)
    have hle := digitsF_length_le 58 (by norm_num) 52 n n h52
    omega

theorem wif_length_51_52_witness :
    (List.replicate 32 1).length = 32 ∧
    (∀ b ∈ List.replicate 32 1, b < 256) ∧
    (51 ≤ (to_wif (List.replicate 32 1) true).length ∧
     (to_wif (List.replicate 32 1) true).length ≤ 52) :=
  ⟨by decide, by decide,
   wif_length_51_52 (List.replicate 32 1) (by decide) (by decide)⟩

/-- C3: for every 32-byte private key, base58-decoding the string
produced by `to_wif` (inverting the repeated-division and leading-'1'
steps) yields back the original 37- or 38-byte checksummed data, and the
first 4 bytes of the double SHA-256 of all but the last 4 bytes equal
those last 4 bytes. -/
theorem wif_roundtrip (key : List Nat) (c : Bool)
    (hlen : key.length = 32) (hbytes : ∀ b ∈ key, b < 256) :
    b58decode (to_wif key c) = wifData key c ∧
    (sha256 (sha256 ((wifData key c).take ((wifData key c).length - 4)))).take 4
      = (wifData key c).drop ((wifData key c).length - 4) := by
  constructor
  · set n := fromBytesBE (wifData key c) with hndef
    have hnpos : 0 < n := fromBytesBE_wifData_pos key c
    obtain ⟨d0, t, hds, hd0pos, hd0lt⟩ :=
      digitsF_head 58 (by norm_num) n n hnpos le_rfl
    have hdata : (to_wif key c).data
        = b58chars.getD d0 '1' :: t.map (fun r => b58chars.getD r '1') := by
      rw [to_wif_data, hds]
      rfl
    have hne : (b58chars.getD d0 '1' == '1') = false :=
      beq_eq_false_iff_ne.mpr (b58chars_getD_ne_one d0 hd0lt hd0pos)
    have hfold : (b58chars.getD d0 '1' :: t.map (fun r => b58chars.getD r '1')).foldl
        (fun a ch => a * 58 + b58index ch) 0 = n := by
      have hmap : b58chars.getD d0 '1' :: t.map (fun r => b58chars.getD r '1')
          = (d0 :: t).map (fun r => b58chars.getD r '1') := rfl
      rw [hmap, List.foldl_map, ← hds]
      have hext : (digitsF 58 n n).foldl
          (fun a d => a * 58 + b58index (b58chars.getD d '1')) 0
          = (digitsF 58 n n).foldl (fun a d => a * 58 + d) 0 :=
        List.foldl_ext (fun a d => a * 58 + b58index (b58chars.getD d '1'))
          (fun a d => a * 58 + d) 0
          (fun a d hd => by
            show a * 58 + b58index (b58chars.getD d '1') = a * 58 + d
            rw [b58index_getD d (digitsF_lt 58 (by norm_num) n n d hd)])
      rw [hext]
      exact valD_digitsF 58 (by norm_num) n n le_rfl
    simp only [b58decode, hdata, List.takeWhile_cons, hne]
    simp only [Bool.false_eq_true, if_false, List.length_nil, List.drop_zero,
      List.replicate_zero, List.nil_append]
    rw [← hdata, hdata, hfold]
    exact digitsF_valD 256 (by norm_num) (wifData key c)
      (wifData_lt key c hbytes)
      (by rw [wifData_cons]; simp) n le_rfl
  · have hl : (wifData key c).length - 4 = (wifPayload key c).length := by
      have h1 := wifPayload_length key c hlen
      have h2 := wifData_length key c hlen
      cases c <;> simp_all
    rw [hl, wifData, List.take_left, List.drop_left]
    rfl

theorem wif_roundtrip_witness :
    (List.replicate 32 1).length = 32 ∧
    (∀ b ∈ List.replicate 32 1, b < 256) ∧
    (b58decode (to_wif (List.replicate 32 1) true) = wifData (List.replicate 32 1) true ∧
     (sha256 (sha256 ((wifData (List.replicate 32 1) true).take
         ((wifData (List.replicate 32 1) true).length - 4)))).take 4
       = (wifData (List.replicate 32 1) true).drop
           ((wifData (List.replicate 32 1) true).length - 4)) :=
  ⟨by decide, by decide,
   wif_roundtrip (List.replicate 32 1) true (by decide) (by decide)⟩

/-- C4 counterexample: the claim says `to_wif` fails with `ValueError`
whenever its key is not exactly 32 bytes, but `to_wif` contains no
length check and no `raise` statement: on the 1-byte key `[5]` it does
not fail and returns the base58 string computed here, so "fails iff not
32 bytes" is false. -/
theorem to_wif_no_length_check : to_wif [5] true = "5rP114XWM1" := by decide

/-- C4 amended: `to_wif` never raises: it performs no length validation
and returns a non-empty base58 string for a key of any length (the
checksummed data always starts with the nonzero version byte 0x80). -/
theorem to_wif_total_nonempty (key : List Nat) (c : Bool) : to_wif key c ≠ "" := by
  intro hcontra
  have hdata := to_wif_data key c
  rw [hcontra] at hdata
  set n := fromBytesBE (wifData key c) with hndef
  obtain ⟨d0, t, hds, _, _⟩ :=
    digitsF_head 58 (by norm_num) n n (fromBytesBE_wifData_pos key c) le_rfl
  rw [hds] at hdata
  have hempty : ("" : String).data = [] := rfl
  rw [hempty] at hdata
  simp at hdata

/-- C5 counterexample: on a successful run `main` does not print exactly
two lines: with any address string and private key it prints three
(`print("=== VLY KEYGEN (offline) ===")` comes before the two labeled
lines). -/
theorem main_prints_three_lines :
    (mainOutput "vly1qexample" (List.replicate 32 1)).length ≠ 2 := by
  simp [mainOutput]

/-- C5 amended: on a successful run the program prints exactly three
lines: an unlabeled banner, then the labeled address line, then the
labeled WIF private-key line, in that order (and the run performs no
failing operation). -/
theorem main_output_lines (addr : String) (priv : List Nat) :
    (mainOutput addr priv).length = 3 ∧
    mainOutput addr priv
      = ["=== VLY KEYGEN (offline) ===",
         "Public address (VLY Bech32): " ++ addr,
         "Private key (WIF, keep SECRET!): " ++ to_wif priv true] ∧
    isLabeled "=== VLY KEYGEN (offline) ===" = false ∧
    isLabeled ("Public address (VLY Bech32): " ++ addr) = true ∧
    isLabeled ("Private key (WIF, keep SECRET!): " ++ to_wif priv true) = true := by
  refine ⟨rfl, rfl, by decide, ?_, ?_⟩
  · simp only [isLabeled]
    refine Bool.or_eq_true_iff.mpr (Or.inl ?_)
    rw [String.data_append]
    exact isPrefixOf_append_left _ _ _ (by decide)
  · simp only [isLabeled]
    refine Bool.or_eq_true_iff.mpr (Or.inr ?_)
    rw [String.data_append]
    exact isPrefixOf_append_left _ _ _ (by decide)

end VlyKeygen
